import Mathlib

/-!
Verification of the `bofhle` guess-scoring and candidate-filtering engine
(`src/bofhle/bofhle.py`).

Words and feedback strings are modelled as `List Char` (the spec's Word is a
fixed 5-letter lowercase string; concrete statements use `String.data` of
literals).  Python dictionaries used as counters / grouping tables are
modelled as explicit functions `Char → Nat` resp. association lists, and
Python exceptions (`ZeroDivisionError`, `IndexError`, `ValueError`,
`RuntimeError`) as `Except String` results.  `math.log2` (used only by the
Shannon ranker, whose numeric values no claim depends on) is a floating-point
function and is modelled as an explicit parameter `log2 : ℚ → ℚ`; all other
arithmetic in the source is exact on integers apart from the two divisions,
which are modelled in `ℚ`.
-/

/-- First pass of `score_wordle`: walk `zip guess candidate` left to right;
an exact position match is marked `'g'`, every other position is marked `'b'`
and the candidate's letter is added to the `candidate_remaining` counter
(a Python dict with default 0, modelled as `Char → Nat`). -/
def pass1 : List (Char × Char) → (Char → Nat) → List Char × (Char → Nat)
  | [], rem => ([], rem)
  | (g, c) :: rest, rem =>
    if g = c then
      ('g' :: (pass1 rest rem).1, (pass1 rest rem).2)
    else
      ('b' :: (pass1 rest (fun x => if x = c then rem x + 1 else rem x)).1,
       (pass1 rest (fun x => if x = c then rem x + 1 else rem x)).2)

/-- Second pass of `score_wordle`: walk `zip guess result`; a non-`'b'` mark is
kept; a `'b'` mark becomes `'y'` when the guessed letter still has a positive
remaining count, which is then decremented. -/
def pass2 : List (Char × Char) → (Char → Nat) → List Char
  | [], _ => []
  | (g, r) :: rest, rem =>
    if r ≠ 'b' then r :: pass2 rest rem
    else if rem g > 0 then
      'y' :: pass2 rest (fun x => if x = g then rem g - 1 else rem x)
    else 'b' :: pass2 rest rem

/-- `score_wordle(guess, candidate)` from the source.  The source initialises
`result = ["b"] * 5` and writes positions `0 .. len(guess)-1`; this model
appends the untouched `'b'` padding after the two passes, which agrees with
the source on its whole non-raising domain (equal-length words of length at
most 5; all of the spec's Words have length exactly 5). -/
def score_wordle (guess candidate : List Char) : List Char :=
  let p := pass1 (guess.zip candidate) (fun _ => 0)
  let result := p.1 ++ List.replicate (5 - guess.length) 'b'
  pass2 (guess.zip result) p.2 ++ result.drop guess.length

theorem pass1_length (ps : List (Char × Char)) (rem : Char → Nat) :
    (pass1 ps rem).1.length = ps.length := by
  induction ps generalizing rem with
  | nil => rfl
  | cons p rest ih =>
    obtain ⟨g, c⟩ := p
    by_cases h : g = c <;> simp [pass1, h, ih]

theorem pass2_length (ps : List (Char × Char)) (rem : Char → Nat) :
    (pass2 ps rem).length = ps.length := by
  induction ps generalizing rem with
  | nil => rfl
  | cons p rest ih =>
    obtain ⟨g, r⟩ := p
    by_cases h : r ≠ 'b'
    · simp [pass2, h, ih]
    · by_cases h2 : rem g > 0 <;> simp [pass2, h, h2, ih]

theorem pass1_zip_self (l : List Char) (rem : Char → Nat) :
    pass1 (l.zip l) rem = (List.replicate l.length 'g', rem) := by
  induction l with
  | nil => rfl
  | cons a l ih =>
    rw [List.zip_cons_cons, List.length_cons, List.replicate_succ]
    show (if a = a then _ else _) = _
    rw [if_pos rfl, ih]

theorem pass2_replicate_g (g : List Char) (n : Nat) (rem : Char → Nat) :
    pass2 (g.zip (List.replicate n 'g')) rem = List.replicate (min g.length n) 'g' := by
  induction g generalizing n with
  | nil => simp [pass2]
  | cons a g ih =>
    cases n with
    | zero => simp [pass2]
    | succ n =>
      rw [List.replicate_succ, List.zip_cons_cons]
      show (if ('g' : Char) ≠ 'b' then _ else _) = _
      rw [if_pos (by decide), ih]
      rw [List.length_cons, Nat.succ_min_succ, List.replicate_succ]

/-- `score_wordle` on two length-5 words returns a length-5 feedback string. -/
theorem score_wordle_length (g c : List Char) (hg : g.length = 5) (hc : c.length = 5) :
    (score_wordle g c).length = 5 := by
  have hzip : (g.zip c).length = 5 := by simp [List.length_zip, hg, hc]
  simp only [score_wordle]
  have h1 : (pass1 (g.zip c) (fun _ => 0)).1.length = 5 := by
    rw [pass1_length, hzip]
  have hres : ((pass1 (g.zip c) (fun _ => 0)).1 ++
      List.replicate (5 - g.length) 'b').length = 5 := by
    simp [h1, hg]
  rw [List.length_append, pass2_length, List.length_zip, hres, List.length_drop, hres, hg]
  decide

/-- `score_wordle g g` is all-hit for a length-5 word `g`. -/
theorem score_wordle_self (g : List Char) (hg : g.length = 5) :
    score_wordle g g = List.replicate 5 'g' := by
  simp only [score_wordle, pass1_zip_self, hg]
  rw [Nat.sub_self, List.replicate_zero, List.append_nil,
    pass2_replicate_g, hg, List.drop_eq_nil_of_le (by simp), Nat.min_self,
    List.append_nil]

/-- C1: duplicate-letter correctness of the two-pass feedback scorer:
`score_wordle "allay" "alarm" = "ggbyb"` and `score_wordle "paste" "paste" = "ggggg"`. -/
theorem claim_C1_score_duplicates :
    score_wordle "allay".data "alarm".data = "ggbyb".data ∧
    score_wordle "paste".data "paste".data = "ggggg".data := by
  constructor <;> decide

/-- C2: for 5-letter words (the spec's Word type) `g` and `c`,
`score_wordle g c` has exactly one feedback symbol per letter position of the
guess, and `score_wordle g g` is all-hit. -/
theorem claim_C2_score_shape (g c : List Char) (hg : g.length = 5) (hc : c.length = 5) :
    (score_wordle g c).length = g.length ∧
    score_wordle g g = List.replicate 5 'g' := by
  refine ⟨?_, score_wordle_self g hg⟩
  rw [score_wordle_length g c hg hc, hg]

/-- Witness for C2 at concrete 5-letter words. -/
theorem claim_C2_score_shape_witness :
    (score_wordle "quota".data "paste".data).length = "quota".data.length ∧
    score_wordle "quota".data "quota".data = List.replicate 5 'g' :=
  claim_C2_score_shape "quota".data "paste".data (by decide) (by decide)

/-- One round of play: an immutable `(guess, result)` pair (`GuessResult` in
the source). -/
structure GuessResult where
  guess : List Char
  result : List Char
deriving DecidableEq

/-- A finished simulated game: the secret and the ordered guesses
(`GameResult` in the source). -/
structure GameResult where
  secret : List Char
  guesses : List (List Char)
deriving DecidableEq

/-- `filter_candidates(words, history)`: starting from `words`, for each
history item in order keep only the words whose score against the item's
guess equals the recorded result. -/
def filter_candidates (words : List (List Char)) (history : List GuessResult) :
    List (List Char) :=
  history.foldl
    (fun candidates item =>
      candidates.filter (fun word => score_wordle item.guess word == item.result))
    words

theorem filter_candidates_nil (words : List (List Char)) :
    filter_candidates words [] = words := rfl

theorem filter_candidates_cons (words : List (List Char)) (r : GuessResult)
    (rest : List GuessResult) :
    filter_candidates words (r :: rest) =
      filter_candidates
        (words.filter (fun word => score_wordle r.guess word == r.result)) rest := rfl

theorem filter_candidates_append (words : List (List Char))
    (h1 h2 : List GuessResult) :
    filter_candidates words (h1 ++ h2) =
      filter_candidates (filter_candidates words h1) h2 :=
  List.foldl_append ..

theorem filter_candidates_subset (words : List (List Char))
    (history : List GuessResult) :
    ∀ w ∈ filter_candidates words history, w ∈ words := by
  induction history generalizing words with
  | nil => intro w hw; exact hw
  | cons r rest ih =>
    intro w hw
    rw [filter_candidates_cons] at hw
    exact List.mem_of_mem_filter (ih _ w hw)

/-- Membership characterisation of the sequential filter: a word survives the
whole history iff it is in the dictionary and is consistent with every record. -/
theorem mem_filter_candidates (words : List (List Char))
    (history : List GuessResult) (w : List Char) :
    w ∈ filter_candidates words history ↔
      w ∈ words ∧ ∀ r ∈ history, score_wordle r.guess w = r.result := by
  induction history generalizing words with
  | nil => simp [filter_candidates_nil]
  | cons r rest ih =>
    rw [filter_candidates_cons, ih, List.mem_filter]
    constructor
    · rintro ⟨⟨hw, hr⟩, hrest⟩
      refine ⟨hw, ?_⟩
      intro q hq
      rcases List.mem_cons.mp hq with h | h
      · subst h; exact beq_iff_eq.mp hr
      · exact hrest q h
    · rintro ⟨hw, hall⟩
      exact ⟨⟨hw, beq_iff_eq.mpr (hall r (List.mem_cons_self r rest))⟩,
        fun q hq => hall q (List.mem_cons_of_mem r hq)⟩

/-- C3: filtering is monotonic in the history: dropping the last record can
only keep the candidate list at least as long, and the filtered list is always
a subset of the dictionary. -/
theorem claim_C3_filter_monotonic (D : List (List Char)) (H : List GuessResult)
    (hne : H ≠ []) :
    (filter_candidates D H).length ≤ (filter_candidates D H.dropLast).length ∧
    ∀ w ∈ filter_candidates D H, w ∈ D := by
  refine ⟨?_, filter_candidates_subset D H⟩
  conv_lhs => rw [← List.dropLast_append_getLast hne]
  rw [filter_candidates_append]
  exact List.length_filter_le _ _

/-- Witness for C3: a concrete dictionary and one-record history. -/
theorem claim_C3_filter_monotonic_witness :
    (filter_candidates ["quota".data, "paste".data, "bdiff".data]
        [⟨"paste".data, "bybgb".data⟩]).length ≤
      (filter_candidates ["quota".data, "paste".data, "bdiff".data]
        ([⟨"paste".data, "bybgb".data⟩] : List GuessResult).dropLast).length ∧
    ∀ w ∈ filter_candidates ["quota".data, "paste".data, "bdiff".data]
        [⟨"paste".data, "bybgb".data⟩],
      w ∈ ["quota".data, "paste".data, "bdiff".data] :=
  claim_C3_filter_monotonic ["quota".data, "paste".data, "bdiff".data]
    [⟨"paste".data, "bybgb".data⟩] (by decide)

/-- C4: the final candidate set does not depend on the order of the history:
permuting the history records leaves the filtered set with exactly the same
members. -/
theorem claim_C4_filter_order_independent (D : List (List Char))
    (H H' : List GuessResult) (hp : H.Perm H') :
    ∀ w, w ∈ filter_candidates D H ↔ w ∈ filter_candidates D H' := by
  intro w
  rw [mem_filter_candidates, mem_filter_candidates]
  constructor
  · rintro ⟨hw, hall⟩
    exact ⟨hw, fun r hr => hall r (hp.symm.subset hr)⟩
  · rintro ⟨hw, hall⟩
    exact ⟨hw, fun r hr => hall r (hp.subset hr)⟩

/-- Witness for C4: a two-record history and its transposition, at the word
`quota`. -/
theorem claim_C4_filter_order_independent_witness :
    "quota".data ∈ filter_candidates ["quota".data, "paste".data, "bdiff".data]
        [⟨"paste".data, "bybgb".data⟩, ⟨"bdiff".data, "bbbbb".data⟩] ↔
      "quota".data ∈ filter_candidates ["quota".data, "paste".data, "bdiff".data]
        [⟨"bdiff".data, "bbbbb".data⟩, ⟨"paste".data, "bybgb".data⟩] :=
  claim_C4_filter_order_independent ["quota".data, "paste".data, "bdiff".data]
    _ _ (List.Perm.swap _ _ []) "quota".data

/-- `collections.Counter` over a character sequence: a per-letter occurrence
count built by a left-to-right fold, modelled as `Char → Nat`. -/
def counterOf (chars : List Char) : Char → Nat :=
  chars.foldl (fun f c => fun x => if x = c then f x + 1 else f x) (fun _ => 0)

/-- `score_word` from `score_words`: the sum, over the distinct letters of the
word (Python `set(word)`, modelled as `dedup`; the sum is order-independent),
of the letter counts. -/
def score_word (letter_counts : Char → Nat) (word : List Char) : Nat :=
  (word.dedup.map letter_counts).sum

/-- Sort order used by `scored.sort(key=lambda item: item[0], reverse=True)`:
descending by score; Python's sort is stable, which `List.insertionSort`
with this relation also is. -/
def descByScore (a b : Nat × List Char) : Prop := b.1 ≤ a.1

instance : DecidableRel descByScore := fun a b =>
  inferInstanceAs (Decidable (b.1 ≤ a.1))

instance : IsTotal (Nat × List Char) descByScore :=
  ⟨fun a b => (Nat.le_total b.1 a.1).elim Or.inl Or.inr⟩

instance : IsTrans (Nat × List Char) descByScore :=
  ⟨fun _ _ _ hab hbc => Nat.le_trans hbc hab⟩

/-- `score_words(words)` from the source: count all letters of the
concatenation of `words`, score each word by its distinct letters, and sort
the `(score, word)` pairs by score, descending and stable. -/
def score_words (words : List (List Char)) : List (Nat × List Char) :=
  let letter_counts := counterOf words.flatten
  List.insertionSort descByScore (words.map (fun w => (score_word letter_counts w, w)))

/-- `suggest_top(words, limit)` from the source: the first `limit` entries of
`score_words words`. -/
def suggest_top (words : List (List Char)) (limit : Nat) : List (Nat × List Char) :=
  (score_words words).take limit

/-- Frequency score as the spec words it: over each distinct letter of the
word, the number of occurrences of that letter across all candidate words
concatenated. -/
def freq_score_spec (candidates : List (List Char)) (word : List Char) : Nat :=
  (word.dedup.map (fun ch => candidates.flatten.count ch)).sum

theorem counterOf_eq_count (chars : List Char) (c : Char) :
    counterOf chars c = chars.count c := by
  suffices h : ∀ (l : List Char) (f : Char → Nat) (c : Char),
      l.foldl (fun f c => fun x => if x = c then f x + 1 else f x) f c =
        f c + l.count c by
    simpa using h chars (fun _ => 0) c
  intro l
  induction l with
  | nil => simp
  | cons a l ih =>
    intro f c
    rw [List.foldl_cons, ih, List.count_cons]
    by_cases h : c = a
    · simp [h]; omega
    · have : (a == c) = false := by
        simp [beq_iff_eq]; exact fun hh => h hh.symm
      simp [h, this]

theorem score_word_eq_spec (words : List (List Char)) (w : List Char) :
    score_word (counterOf words.flatten) w = freq_score_spec words w := by
  unfold score_word freq_score_spec
  congr 1
  exact List.map_congr_left fun ch _ => counterOf_eq_count words.flatten ch

/-- Stability of the descending-by-score insertion sort: restricting to the
pairs of any fixed score gives back exactly the input order. -/
theorem insertionSort_descByScore_filter (s : Nat) :
    ∀ l : List (Nat × List Char),
      (List.insertionSort descByScore l).filter (fun p => p.1 == s) =
        l.filter (fun p => p.1 == s) := by
  have hins : ∀ (x : Nat × List Char) (l : List (Nat × List Char)),
      (List.orderedInsert descByScore x l).filter (fun p => p.1 == s) =
        if x.1 = s then x :: l.filter (fun p => p.1 == s)
        else l.filter (fun p => p.1 == s) := by
    intro x l
    induction l with
    | nil =>
      by_cases hx : x.1 = s <;>
        simp [List.orderedInsert, List.filter_cons, List.filter_nil, hx, beq_iff_eq]
    | cons b l ih =>
      rw [List.orderedInsert]
      by_cases hr : descByScore x b
      · rw [if_pos hr]
        by_cases hx : x.1 = s <;> simp [List.filter_cons, hx, beq_iff_eq]
      · rw [if_neg hr]
        have hbx : x.1 < b.1 := Nat.lt_of_not_le hr
        by_cases hx : x.1 = s
        · have hb : ¬ b.1 = s := by
            intro hbs
            exact Nat.lt_irrefl _ (hx ▸ hbs ▸ hbx)
          simp [List.filter_cons, hx, hb, ih, beq_iff_eq]
        · by_cases hb : b.1 = s <;>
            simp [List.filter_cons, hx, hb, ih, beq_iff_eq]
  intro l
  induction l with
  | nil => rfl
  | cons x l ih =>
    rw [List.insertionSort, hins x (List.insertionSort descByScore l)]
    by_cases hx : x.1 = s <;> simp [List.filter_cons, hx, ih, beq_iff_eq]

/-- C5: `score_words` returns exactly the input pool scored by the
distinct-letter frequency sum over the concatenated candidate words, in a
stable descending sort: the output is a permutation of the scored pool, it is
pairwise descending by score, and within each score level the encounter order
of the pool is preserved. -/
theorem claim_C5_frequency_ranker (ws : List (List Char)) :
    (score_words ws).Perm (ws.map fun w => (freq_score_spec ws w, w)) ∧
    (score_words ws).Pairwise descByScore ∧
    ∀ s : Nat, (score_words ws).filter (fun p => p.1 == s) =
      (ws.map fun w => (freq_score_spec ws w, w)).filter (fun p => p.1 == s) := by
  have hmap : ws.map (fun w => (score_word (counterOf ws.flatten) w, w)) =
      ws.map (fun w => (freq_score_spec ws w, w)) :=
    List.map_congr_left fun w _ => by rw [score_word_eq_spec]
  refine ⟨?_, ?_, ?_⟩
  · rw [score_words, ← hmap]
    exact List.perm_insertionSort descByScore _
  · exact List.sorted_insertionSort descByScore _
  · intro s
    rw [score_words, ← hmap]
    exact insertionSort_descByScore_filter s _

/-- Sort order used by `scored.sort(key=lambda item: (item[0], item[1]))` in
`suggest_entropy` (and `suggest_coverage` with `Nat` scores): ascending by
score, ties broken by ascending lexicographic word order (Python tuple
comparison on `(float, str)`). -/
def entroLe (a b : ℚ × List Char) : Prop :=
  a.1 < b.1 ∨ (a.1 = b.1 ∧ a.2 ≤ b.2)

instance : DecidableRel entroLe := fun a b =>
  inferInstanceAs (Decidable (a.1 < b.1 ∨ (a.1 = b.1 ∧ a.2 ≤ b.2)))

instance : IsTotal (ℚ × List Char) entroLe := by
  refine ⟨fun a b => ?_⟩
  rcases lt_trichotomy a.1 b.1 with h | h | h
  · exact Or.inl (Or.inl h)
  · rcases le_total a.2 b.2 with h2 | h2
    · exact Or.inl (Or.inr ⟨h, h2⟩)
    · exact Or.inr (Or.inr ⟨h.symm, h2⟩)
  · exact Or.inr (Or.inl h)

instance : IsTrans (ℚ × List Char) entroLe := by
  refine ⟨fun a b c hab hbc => ?_⟩
  rcases hab with hab | ⟨hab, hab2⟩
  · rcases hbc with hbc | ⟨hbc, _⟩
    · exact Or.inl (hab.trans hbc)
    · exact Or.inl (hbc ▸ hab)
  · rcases hbc with hbc | ⟨hbc, hbc2⟩
    · exact Or.inl (hab ▸ hbc)
    · exact Or.inr ⟨hab.trans hbc, hab2.trans hbc2⟩

/-- `pattern_groups.setdefault(pattern, []).append(candidate)`: a Python dict
from feedback pattern to the list of candidates producing it, modelled as an
association list in key-insertion order; an existing key has the candidate
appended to its group, a new key is appended at the end. -/
def upsert (groups : List (List Char × List (List Char))) (p : List Char)
    (c : List Char) : List (List Char × List (List Char)) :=
  match groups with
  | [] => [(p, [c])]
  | (k, v) :: rest =>
    if k = p then (k, v ++ [c]) :: rest else (k, v) :: upsert rest p c

/-- Association-list lookup with default `[]` (a dict read). -/
def lookupG (groups : List (List Char × List (List Char))) (p : List Char) :
    List (List Char) :=
  match groups with
  | [] => []
  | (k, v) :: rest => if k = p then v else lookupG rest p

/-- The grouping loop of `suggest_entropy`: partition `candidates` by their
feedback pattern against `guess`. -/
def pattern_groups (guess : List Char) (candidates : List (List Char)) :
    List (List Char × List (List Char)) :=
  candidates.foldl (fun gs c => upsert gs (score_wordle guess c) c) []

/-- `expected = sum(len(group) ** 2 for group in pattern_groups.values()) /
len(candidates)`; the Python division raises `ZeroDivisionError` exactly when
`candidates` is empty. -/
def entropy_expected (guess : List Char) (candidates : List (List Char)) :
    Except String ℚ :=
  if candidates.length = 0 then .error "ZeroDivisionError"
  else
    .ok (((pattern_groups guess candidates).map
        (fun g => ((g.2.length : ℚ)) ^ 2)).sum / (candidates.length : ℚ))

/-- The scoring loop of `suggest_entropy`: score each pool word in order,
propagating the first raised error. -/
def score_pool (all_words candidates : List (List Char)) :
    Except String (List (ℚ × List Char)) :=
  match all_words with
  | [] => .ok []
  | g :: rest =>
    match entropy_expected g candidates with
    | .error e => .error e
    | .ok e =>
      match score_pool rest candidates with
      | .error e2 => .error e2
      | .ok tail => .ok ((e, g) :: tail)

/-- `suggest_entropy(all_words, candidates, limit)` from the source: score the
pool, sort ascending by `(score, word)`, truncate to `limit`. -/
def suggest_entropy (all_words candidates : List (List Char)) (limit : Nat) :
    Except String (List (ℚ × List Char)) :=
  match score_pool all_words candidates with
  | .error e => .error e
  | .ok scored => .ok ((List.insertionSort entroLe scored).take limit)

/-- Expected-remaining score as the spec words it: partition the candidate
set into groups by the feedback pattern the guess produces against each
candidate; the score is the sum of squared group sizes divided by the number
of candidates. -/
def expected_remaining_spec (guess : List Char) (candidates : List (List Char)) : ℚ :=
  (((candidates.map (score_wordle guess)).dedup.map
      (fun p => ((candidates.countP (fun c => score_wordle guess c == p) : ℚ)) ^ 2)).sum)
    / (candidates.length : ℚ)

theorem lookupG_upsert (gs : List (List Char × List (List Char)))
    (p c q : List Char) :
    lookupG (upsert gs p c) q =
      if q = p then lookupG gs q ++ [c] else lookupG gs q := by
  induction gs with
  | nil =>
    by_cases hq : q = p
    · subst hq
      simp [upsert, lookupG]
    · have hp : ¬ p = q := fun h => hq h.symm
      simp [upsert, lookupG, hq, hp]
  | cons kv rest ih =>
    obtain ⟨k, v⟩ := kv
    by_cases hk : k = p
    · subst hk
      rw [upsert, if_pos rfl]
      by_cases hq : q = k
      · subst hq
        simp [lookupG]
      · have hkq : ¬ k = q := fun h => hq h.symm
        simp [lookupG, hkq, hq]
    · rw [upsert, if_neg hk]
      by_cases hq : q = k
      · subst hq
        have hqp : ¬ q = p := hk
        simp [lookupG, hqp]
      · have hkq : ¬ k = q := fun h => hq h.symm
        simp [lookupG, hkq, ih]

theorem keys_upsert (gs : List (List Char × List (List Char)))
    (p c : List Char) :
    (upsert gs p c).map Prod.fst =
      if p ∈ gs.map Prod.fst then gs.map Prod.fst
      else gs.map Prod.fst ++ [p] := by
  induction gs with
  | nil => simp [upsert]
  | cons kv rest ih =>
    obtain ⟨k, v⟩ := kv
    rw [upsert]
    by_cases hk : k = p
    · subst hk
      simp
    · have hne : ¬ p = k := fun h => hk h.symm
      by_cases hp : p ∈ rest.map Prod.fst <;>
        simp [hk, hne, hp, ih]

theorem groupFold_lookup (guess : List Char) (l : List (List Char)) :
    ∀ (gs : List (List Char × List (List Char))) (q : List Char),
      lookupG (l.foldl (fun gs c => upsert gs (score_wordle guess c) c) gs) q =
        lookupG gs q ++ l.filter (fun c => score_wordle guess c == q) := by
  induction l with
  | nil => simp
  | cons c l ih =>
    intro gs q
    rw [List.foldl_cons, ih, lookupG_upsert, List.filter_cons]
    by_cases hq : q = score_wordle guess c
    · have : (score_wordle guess c == q) = true := beq_iff_eq.mpr hq.symm
      simp [hq, this]
    · have : (score_wordle guess c == q) = false := by
        simp [beq_iff_eq]; exact fun h => hq h.symm
      simp [hq, this]

theorem groupFold_keys_mem (guess : List Char) (l : List (List Char)) :
    ∀ (gs : List (List Char × List (List Char))) (q : List Char),
      q ∈ (l.foldl (fun gs c => upsert gs (score_wordle guess c) c) gs).map Prod.fst ↔
        q ∈ gs.map Prod.fst ∨ q ∈ l.map (score_wordle guess) := by
  induction l with
  | nil => simp
  | cons c l ih =>
    intro gs q
    rw [List.foldl_cons, ih, keys_upsert]
    by_cases hp : score_wordle guess c ∈ gs.map Prod.fst
    · rw [if_pos hp]
      have hqs : q = score_wordle guess c → q ∈ gs.map Prod.fst := by
        intro h; rw [h]; exact hp
      simp only [List.map_cons, List.mem_cons]
      tauto
    · rw [if_neg hp]
      simp only [List.mem_append, List.mem_singleton, List.map_cons, List.mem_cons]
      tauto

theorem groupFold_keys_nodup (guess : List Char) (l : List (List Char)) :
    ∀ gs : List (List Char × List (List Char)),
      (gs.map Prod.fst).Nodup →
      ((l.foldl (fun gs c => upsert gs (score_wordle guess c) c) gs).map Prod.fst).Nodup := by
  induction l with
  | nil => intro gs h; exact h
  | cons c l ih =>
    intro gs h
    rw [List.foldl_cons]
    refine ih _ ?_
    rw [keys_upsert]
    by_cases hp : score_wordle guess c ∈ gs.map Prod.fst
    · rwa [if_pos hp]
    · rw [if_neg hp]
      simp [List.nodup_append, h, hp]

theorem pattern_groups_lookup (guess : List Char) (candidates : List (List Char))
    (q : List Char) :
    lookupG (pattern_groups guess candidates) q =
      candidates.filter (fun c => score_wordle guess c == q) := by
  rw [pattern_groups, groupFold_lookup]
  rfl

theorem pattern_groups_keys_mem (guess : List Char) (candidates : List (List Char))
    (q : List Char) :
    q ∈ (pattern_groups guess candidates).map Prod.fst ↔
      q ∈ candidates.map (score_wordle guess) := by
  rw [pattern_groups, groupFold_keys_mem]
  simp

theorem pattern_groups_keys_nodup (guess : List Char) (candidates : List (List Char)) :
    ((pattern_groups guess candidates).map Prod.fst).Nodup := by
  rw [pattern_groups]
  exact groupFold_keys_nodup guess candidates [] (by simp)

theorem sumSq_eq_over_keys :
    ∀ gs : List (List Char × List (List Char)), (gs.map Prod.fst).Nodup →
      (gs.map (fun g => ((g.2.length : ℚ)) ^ 2)).sum =
        ((gs.map Prod.fst).map (fun q => ((lookupG gs q).length : ℚ) ^ 2)).sum := by
  intro gs
  induction gs with
  | nil => simp
  | cons kv rest ih =>
    obtain ⟨k, v⟩ := kv
    intro hnd
    rw [List.map_cons, List.nodup_cons] at hnd
    obtain ⟨hk, hrest⟩ := hnd
    simp only [List.map_cons, List.sum_cons]
    rw [ih hrest]
    congr 1
    · simp [lookupG]
    · refine congrArg List.sum (List.map_congr_left ?_)
      intro q hq
      have hqk : ¬ q = k := fun h => hk (h ▸ hq)
      have hkq : ¬ k = q := fun h => hqk h.symm
      simp [lookupG, hkq]

/-- The dict-based sum of squared group sizes computed by `suggest_entropy`
equals the spec's partition formula. -/
theorem entropy_expected_eq_spec (guess : List Char) (candidates : List (List Char))
    (h : candidates ≠ []) :
    entropy_expected guess candidates =
      .ok (expected_remaining_spec guess candidates) := by
  have hlen : ¬ candidates.length = 0 := by simpa using h
  rw [entropy_expected, if_neg hlen, expected_remaining_spec]
  congr 2
  have knodup := pattern_groups_keys_nodup guess candidates
  have ddnodup : ((candidates.map (score_wordle guess)).dedup).Nodup :=
    List.nodup_dedup _
  have hperm : ((pattern_groups guess candidates).map Prod.fst).Perm
      ((candidates.map (score_wordle guess)).dedup) :=
    (List.perm_ext_iff_of_nodup knodup ddnodup).mpr fun a => by
      rw [pattern_groups_keys_mem, List.mem_dedup]
  have lhs1 := sumSq_eq_over_keys (pattern_groups guess candidates) knodup
  rw [lhs1]
  have lhs2 : ((pattern_groups guess candidates).map Prod.fst).map
        (fun q => ((lookupG (pattern_groups guess candidates) q).length : ℚ) ^ 2) =
      ((pattern_groups guess candidates).map Prod.fst).map
        (fun q => (((candidates.filter (fun c => score_wordle guess c == q)).length : ℚ)) ^ 2) :=
    List.map_congr_left fun q _ => by rw [pattern_groups_lookup]
  rw [lhs2]
  have rhs1 : ((candidates.map (score_wordle guess)).dedup).map
        (fun p => ((candidates.countP (fun c => score_wordle guess c == p) : ℚ)) ^ 2) =
      ((candidates.map (score_wordle guess)).dedup).map
        (fun p => (((candidates.filter (fun c => score_wordle guess c == p)).length : ℚ)) ^ 2) :=
    List.map_congr_left fun p _ => by rw [List.countP_eq_length_filter]
  rw [rhs1]
  exact (hperm.map _).sum_eq

/-- With a non-empty candidate set the scoring loop raises nothing and
computes exactly the spec's expected-remaining score for each pool word. -/
theorem score_pool_eq_spec (pool candidates : List (List Char))
    (h : candidates ≠ []) :
    score_pool pool candidates =
      .ok (pool.map fun g => (expected_remaining_spec g candidates, g)) := by
  induction pool with
  | nil => rfl
  | cons g rest ih =>
    simp only [score_pool, entropy_expected_eq_spec g candidates h, ih, List.map_cons]

/-- C6: for a non-empty candidate set, `suggest_entropy` assigns each pool
word the score (sum of squared feedback-group sizes) / (number of candidates)
and returns the pool sorted ascending by `(score, word)` — ties broken by
ascending lexicographic word order — truncated to `limit`; the sorted list is
pairwise in that order and is a permutation of the scored pool. -/
theorem claim_C6_entropy_ranker (pool candidates : List (List Char)) (limit : Nat)
    (h : candidates ≠ []) :
    suggest_entropy pool candidates limit =
      .ok ((List.insertionSort entroLe
        (pool.map fun g => (expected_remaining_spec g candidates, g))).take limit) ∧
    (List.insertionSort entroLe
        (pool.map fun g => (expected_remaining_spec g candidates, g))).Pairwise entroLe ∧
    (List.insertionSort entroLe
        (pool.map fun g => (expected_remaining_spec g candidates, g))).Perm
      (pool.map fun g => (expected_remaining_spec g candidates, g)) := by
  refine ⟨?_, List.sorted_insertionSort entroLe _, List.perm_insertionSort entroLe _⟩
  rw [suggest_entropy, score_pool_eq_spec pool candidates h]

/-- Witness for C6 at a concrete pool and candidate set. -/
theorem claim_C6_entropy_ranker_witness :
    suggest_entropy ["paste".data, "quota".data] ["quota".data, "bdiff".data] 10 =
      .ok ((List.insertionSort entroLe
        ((["paste".data, "quota".data]).map fun g =>
          (expected_remaining_spec g ["quota".data, "bdiff".data], g))).take 10) ∧
    (List.insertionSort entroLe
        ((["paste".data, "quota".data]).map fun g =>
          (expected_remaining_spec g ["quota".data, "bdiff".data], g))).Pairwise entroLe ∧
    (List.insertionSort entroLe
        ((["paste".data, "quota".data]).map fun g =>
          (expected_remaining_spec g ["quota".data, "bdiff".data], g))).Perm
      ((["paste".data, "quota".data]).map fun g =>
        (expected_remaining_spec g ["quota".data, "bdiff".data], g)) :=
  claim_C6_entropy_ranker ["paste".data, "quota".data]
    ["quota".data, "bdiff".data] 10 (by decide)

/-- C10: `suggest_entropy` divides by the candidate count without a guard:
with an empty candidate set and a non-empty pool the `ZeroDivisionError`
branch is reached, while with a non-empty candidate set the division is
always defined and the call returns a result. -/
theorem claim_C10_entropy_division_guard (pool candidates : List (List Char))
    (limit : Nat) :
    (candidates = [] → pool ≠ [] →
      suggest_entropy pool candidates limit = .error "ZeroDivisionError") ∧
    (candidates ≠ [] →
      ∃ out, suggest_entropy pool candidates limit = .ok out) := by
  constructor
  · intro hc hp
    subst hc
    cases pool with
    | nil => exact absurd rfl hp
    | cons g rest => rfl
  · intro hc
    exact ⟨_, by rw [suggest_entropy, score_pool_eq_spec pool candidates hc]⟩

/-- Witness for C10: the error branch on an empty candidate set and the
defined result on a non-empty one. -/
theorem claim_C10_entropy_division_guard_witness :
    suggest_entropy ["paste".data] [] 10 = .error "ZeroDivisionError" ∧
    ∃ out, suggest_entropy ["paste".data] ["quota".data] 10 = .ok out :=
  ⟨(claim_C10_entropy_division_guard ["paste".data] [] 10).1 rfl (by decide),
   (claim_C10_entropy_division_guard ["paste".data] ["quota".data] 10).2 (by decide)⟩

/-- Sort order of `suggest_coverage`: `key=lambda item: (item[0], item[1])`
with an integer score. -/
def covLe (a b : Nat × List Char) : Prop :=
  a.1 < b.1 ∨ (a.1 = b.1 ∧ a.2 ≤ b.2)

instance : DecidableRel covLe := fun a b =>
  inferInstanceAs (Decidable (a.1 < b.1 ∨ (a.1 = b.1 ∧ a.2 ≤ b.2)))

/-- `suggest_coverage(all_words, candidates, limit)` from the source: score
each pool word by how many candidates would remain on an all-miss result,
sort ascending by `(score, word)`, truncate. -/
def suggest_coverage (all_words candidates : List (List Char)) (limit : Nat) :
    List (Nat × List Char) :=
  let scored := all_words.map
    (fun word => (candidates.countP (fun c => score_wordle word c == "bbbbb".data), word))
  (List.insertionSort covLe scored).take limit

/-- The `pattern_counts` dict of `suggest_shannon`: occurrences per feedback
pattern, an association list in key-insertion order. -/
def upsertCount (gs : List (List Char × Nat)) (p : List Char) :
    List (List Char × Nat) :=
  match gs with
  | [] => [(p, 1)]
  | (k, n) :: rest =>
    if k = p then (k, n + 1) :: rest else (k, n) :: upsertCount rest p

/-- The counting loop of `suggest_shannon`. -/
def pattern_counts (guess : List Char) (candidates : List (List Char)) :
    List (List Char × Nat) :=
  candidates.foldl (fun gs c => upsertCount gs (score_wordle guess c)) []

/-- Sort order of `suggest_shannon`: `key=lambda item: (-item[0], item[1])`
(descending by entropy, ties by ascending word). -/
def shannonLe (a b : ℚ × List Char) : Prop :=
  -a.1 < -b.1 ∨ (-a.1 = -b.1 ∧ a.2 ≤ b.2)

instance : DecidableRel shannonLe := fun a b =>
  inferInstanceAs (Decidable (-a.1 < -b.1 ∨ (-a.1 = -b.1 ∧ a.2 ≤ b.2)))

/-- `suggest_shannon(all_words, candidates, limit)` from the source.  The
floating-point `math.log2` is an explicit parameter `log2`; with an empty
candidate set the values loop body never runs, so no division happens. -/
def suggest_shannon (log2 : ℚ → ℚ) (all_words candidates : List (List Char))
    (limit : Nat) : List (ℚ × List Char) :=
  let total : ℚ := (candidates.length : ℚ)
  let scored := all_words.map (fun guess =>
    (-(((pattern_counts guess candidates).map
        (fun kv => ((kv.2 : ℚ) / total) * log2 ((kv.2 : ℚ) / total))).sum), guess))
  (List.insertionSort shannonLe scored).take limit

/-- `select_guess_pool` from the source: `most-likely` always uses the
candidate set; otherwise the candidate set is used once the candidate-only
policy is on and the guess index has reached the threshold; otherwise the
full dictionary. -/
def select_guess_pool (strategy : String) (all_words candidates : List (List Char))
    (candidate_only : Bool) (guess_index candidate_only_after : Nat) :
    List (List Char) :=
  if strategy = "most-likely" then candidates
  else if candidate_only = true ∧ candidate_only_after ≤ guess_index then candidates
  else all_words

/-- One guess selection of the `play_game` loop body: the single-candidate
short-circuit, then pool selection, then strategy dispatch; `[0]` on an empty
ranking is an `IndexError`, an unknown strategy a `ValueError`. -/
def choose_guess (log2 : ℚ → ℚ) (strategy : String)
    (words candidates : List (List Char)) (candidate_only : Bool)
    (guess_index candidate_only_after : Nat) : Except String (List Char) :=
  if candidates.length = 1 then
    match candidates[0]? with
    | some c => .ok c
    | none => .error "IndexError"
  else
    let guess_pool := select_guess_pool strategy words candidates candidate_only
      guess_index candidate_only_after
    if strategy = "entropy" then
      match suggest_entropy guess_pool candidates 1 with
      | .error e => .error e
      | .ok scored =>
        match scored[0]? with
        | some p => .ok p.2
        | none => .error "IndexError"
    else if strategy = "shannon" then
      match (suggest_shannon log2 guess_pool candidates 1)[0]? with
      | some p => .ok p.2
      | none => .error "IndexError"
    else if strategy = "most-likely" then
      match (suggest_top candidates 1)[0]? with
      | some p => .ok p.2
      | none => .error "IndexError"
    else if strategy = "coverage" then
      match (suggest_coverage guess_pool candidates 1)[0]? with
      | some p => .ok p.2
      | none => .error "IndexError"
    else .error ("Unknown strategy: " ++ strategy)

/-- The `for guess_index in range(len(words) + 1)` loop of `play_game`,
with the remaining iteration count as fuel; running out of rounds is the
fatal `RuntimeError`. -/
def play_game_loop (log2 : ℚ → ℚ) (secret : List Char) (words : List (List Char))
    (strategy : String) (candidate_only : Bool) (candidate_only_after : Nat) :
    Nat → List GuessResult → List (List Char) → Nat → Except String GameResult
  | 0, _, _, _ => .error ("Failed to solve secret " ++ String.mk secret ++ ".")
  | fuel + 1, history, candidates, guess_index =>
    match choose_guess log2 strategy words candidates candidate_only
        guess_index candidate_only_after with
    | .error e => .error e
    | .ok guess =>
      let history2 := history ++ [⟨guess, score_wordle guess secret⟩]
      if guess = secret then .ok ⟨secret, history2.map GuessResult.guess⟩
      else
        play_game_loop log2 secret words strategy candidate_only candidate_only_after
          fuel history2 (filter_candidates words history2) (guess_index + 1)

/-- `play_game(secret, words, strategy, candidate_only, candidate_only_after)`
from the source: at most `len(words) + 1` rounds starting from the full
dictionary and an empty history. -/
def play_game (log2 : ℚ → ℚ) (secret : List Char) (words : List (List Char))
    (strategy : String) (candidate_only : Bool) (candidate_only_after : Nat) :
    Except String GameResult :=
  play_game_loop log2 secret words strategy candidate_only candidate_only_after
    (words.length + 1) [] words 0

theorem play_game_loop_ok (log2 : ℚ → ℚ) (secret : List Char)
    (words : List (List Char)) (strategy : String) (co : Bool) (coa : Nat) :
    ∀ (fuel : Nat) (history : List GuessResult) (candidates : List (List Char))
      (gi : Nat) (res : GameResult),
      play_game_loop log2 secret words strategy co coa fuel history candidates gi =
        .ok res →
      res.secret = secret ∧ res.guesses.getLast? = some secret := by
  intro fuel
  induction fuel with
  | zero =>
    intro history candidates gi res h
    exact absurd h (by simp [play_game_loop])
  | succ fuel ih =>
    intro history candidates gi res h
    rw [play_game_loop] at h
    cases hcg : choose_guess log2 strategy words candidates co gi coa with
    | error e =>
      rw [hcg] at h
      exact absurd h (by simp)
    | ok guess =>
      rw [hcg] at h
      dsimp only at h
      by_cases hge : guess = secret
      · rw [if_pos hge] at h
        have hres : GameResult.mk secret
            ((history ++ [GuessResult.mk guess (score_wordle guess secret)]).map
              GuessResult.guess) = res := by
          injection h
        subst hres
        subst hge
        refine ⟨rfl, ?_⟩
        simp [List.map_append, List.getLast?_append_cons]
      · rw [if_neg hge] at h
        exact ih _ _ _ res h

/-- C7: whenever `play_game` returns a `GameResult` (instead of raising), its
recorded secret is the requested one and its guess sequence is non-empty and
ends in the secret; a run that never hits the secret within
`len(words) + 1` rounds raises instead of returning. -/
theorem claim_C7_play_game_ends_in_secret (log2 : ℚ → ℚ) (secret : List Char)
    (words : List (List Char)) (strategy : String) (co : Bool) (coa : Nat)
    (res : GameResult)
    (h : play_game log2 secret words strategy co coa = .ok res) :
    res.secret = secret ∧ res.guesses.getLast? = some secret :=
  play_game_loop_ok log2 secret words strategy co coa (words.length + 1) [] words 0 res h

deriving instance DecidableEq for Except

set_option maxRecDepth 10000 in
/-- Witness for C7: a full `most-likely` game over the spec's synthetic
dictionary solves `quota` and its guess list ends in the secret. -/
theorem claim_C7_play_game_ends_in_secret_witness :
    (GameResult.mk "quota".data ["quota".data]).secret = "quota".data ∧
    (GameResult.mk "quota".data ["quota".data]).guesses.getLast? =
      some "quota".data :=
  claim_C7_play_game_ends_in_secret (fun _ => 0) "quota".data
    ["quota".data, "paste".data, "bdiff".data] "most-likely" false 0
    (GameResult.mk "quota".data ["quota".data]) (by decide)

/-- Counterexample to C8 as stated: with the `most-likely` strategy the
selected pool is the candidate set even before the round threshold
(guess index 0, threshold 1), not the full dictionary. -/
theorem claim_C8_pool_policy_counterexample :
    select_guess_pool "most-likely" ["quota".data] ["paste".data] false 0 1 ≠
      ["quota".data] := by
  decide

/-- C8 (amended): for every strategy other than `most-likely`, before the
round threshold the selected pool is the full dictionary; for every strategy,
at or past the threshold with the candidate-only policy on the pool is the
candidate set; the `most-likely` strategy always uses the candidate set. -/
theorem claim_C8_pool_policy_amended (strategy : String)
    (all_words candidates : List (List Char)) (co : Bool) (gi coa : Nat) :
    (strategy ≠ "most-likely" → gi < coa →
      select_guess_pool strategy all_words candidates co gi coa = all_words) ∧
    (co = true → coa ≤ gi →
      select_guess_pool strategy all_words candidates co gi coa = candidates) ∧
    (strategy = "most-likely" →
      select_guess_pool strategy all_words candidates co gi coa = candidates) := by
  refine ⟨?_, ?_, ?_⟩
  · intro hs hlt
    rw [select_guess_pool, if_neg hs, if_neg]
    rintro ⟨-, hge⟩
    exact absurd hlt (Nat.not_lt.mpr hge)
  · intro hco hge
    rw [select_guess_pool]
    by_cases hs : strategy = "most-likely"
    · rw [if_pos hs]
    · rw [if_neg hs, if_pos ⟨hco, hge⟩]
  · intro hs
    rw [select_guess_pool, if_pos hs]

/-- Witness for the amended C8: all three branches at concrete inputs. -/
theorem claim_C8_pool_policy_amended_witness :
    select_guess_pool "entropy" ["quota".data] ["paste".data] true 0 1 =
      ["quota".data] ∧
    select_guess_pool "entropy" ["quota".data] ["paste".data] true 2 1 =
      ["paste".data] ∧
    select_guess_pool "most-likely" ["quota".data] ["paste".data] false 0 1 =
      ["paste".data] :=
  ⟨(claim_C8_pool_policy_amended "entropy" ["quota".data] ["paste".data]
      true 0 1).1 (by decide) (by decide),
   (claim_C8_pool_policy_amended "entropy" ["quota".data] ["paste".data]
      true 2 1).2.1 rfl (by decide),
   (claim_C8_pool_policy_amended "most-likely" ["quota".data] ["paste".data]
      false 0 1).2.2 rfl⟩

/-- Counterexample to C9 as stated: with a one-word dictionary the
single-candidate short-circuit fires before the strategy dispatch, so
`play_game` with the unknown strategy `"bogus"` returns a result instead of
raising. -/
theorem claim_C9_unknown_strategy_counterexample :
    play_game (fun _ => 0) "quota".data ["quota".data] "bogus" false 0 =
      .ok (GameResult.mk "quota".data ["quota".data]) := by
  decide

/-- C9 (amended): whenever the dictionary does not consist of exactly one
word, a `play_game` call with a strategy name other than the four known ones
raises the fatal `Unknown strategy` error on the first round and never falls
back to a default strategy. -/
theorem claim_C9_unknown_strategy_fatal (log2 : ℚ → ℚ) (secret : List Char)
    (words : List (List Char)) (strategy : String) (co : Bool) (coa : Nat)
    (h1 : strategy ≠ "entropy") (h2 : strategy ≠ "shannon")
    (h3 : strategy ≠ "most-likely") (h4 : strategy ≠ "coverage")
    (h5 : words.length ≠ 1) :
    play_game log2 secret words strategy co coa =
      .error ("Unknown strategy: " ++ strategy) := by
  rw [play_game, play_game_loop]
  have hcg : choose_guess log2 strategy words words co 0 coa =
      .error ("Unknown strategy: " ++ strategy) := by
    rw [choose_guess, if_neg h5]
    dsimp only
    rw [if_neg h1, if_neg h2, if_neg h3, if_neg h4]
  rw [hcg]

/-- Witness for the amended C9 at a two-word dictionary. -/
theorem claim_C9_unknown_strategy_fatal_witness :
    play_game (fun _ => 0) "quota".data ["quota".data, "paste".data] "bogus"
      false 0 = .error ("Unknown strategy: " ++ "bogus") :=
  claim_C9_unknown_strategy_fatal (fun _ => 0) "quota".data
    ["quota".data, "paste".data] "bogus" false 0 (by decide) (by decide)
    (by decide) (by decide) (by decide)
